import Mathlib

/-!
Verification of the ice-frost threshold-signature core against its
natural-language specification.  The Rust sources in `src/utils.rs`,
`src/keys.rs`, `src/dkg/participant.rs` and `src/sign/precomputation.rs`
are shallowly embedded below: machine integers (`u32`, `u64`, `isize`)
become `Nat`/`Int`, the ciphersuite's scalar field becomes an arbitrary
`Field F`, the prime-order group becomes an arbitrary module `G` over `F`
with a distinguished generator `B`, fallible functions return
`Except`/`Option`, and the CSPRNG becomes an explicit stream `ℕ → F` of
field elements that is threaded through the code exactly in draw order.
-/

deriving instance DecidableEq for Except

namespace IceFrost

/-- The error kinds of the crate that the embedded functions can surface
(`Error::Custom`, `Error::ShareVerificationError` and the serialization
errors).  Other variants of the crate's error enum are never produced by
the embedded code paths. -/
inductive Error where
  | Custom : String → Error
  | ShareVerificationError : Error
  | SerializationError : Error
  | DeserializationError : Error
deriving DecidableEq

/-- A deterministic stand-in for the CSPRNG: an infinite stream of scalar
field elements, consumed left to right. -/
def RngF (F : Type) : Type := ℕ → F

/-- Advance the random stream by `k` draws. -/
def RngF.shift {F : Type} (s : RngF F) (k : ℕ) : RngF F := fun n => s (n + k)

/-- Embedding of `calculate_lagrange_coefficients` from `src/utils.rs`
(lines 30-54).  The loop over `all_indices` skips every `j` equal to
`my_index` (the `continue`), multiplies the numerator by `j` and the
denominator by `j - my_index` otherwise, fails with the
`Custom "Duplicate shares provided"` message when the accumulated
denominator is zero in the field, and otherwise returns
`numerator * denominator⁻¹`.  Participant indices are `u32` in the
source and are modelled as `ℕ`. -/
def calculate_lagrange_coefficients (F : Type) [Field F] [DecidableEq F]
    (my_index : ℕ) (all_indices : List ℕ) : Except String F :=
  let my_index_field : F := (my_index : F)
  let nd : F × F := all_indices.foldl
    (fun nd j =>
      if j = my_index then nd
      else (nd.1 * (j : F), nd.2 * ((j : F) - my_index_field)))
    (1, 1)
  if nd.2 = 0 then Except.error "Duplicate shares provided"
  else Except.ok (nd.1 * nd.2⁻¹)

/-- Closed form of the fold inside `calculate_lagrange_coefficients`:
starting from `(a, b)` it multiplies `a` by every surviving index and `b`
by every surviving difference. -/
lemma lagrange_foldl (F : Type) [Field F] (i : ℕ) (I : List ℕ) (a b : F) :
    I.foldl
      (fun nd j =>
        if j = i then nd
        else (nd.1 * (j : F), nd.2 * ((j : F) - (i : F))))
      (a, b) =
      (a * ((I.filter (fun j => j != i)).map (fun (j : ℕ) => (j : F))).prod,
       b * ((I.filter (fun j => j != i)).map (fun (j : ℕ) => (j : F) - (i : F))).prod) := by
  induction I generalizing a b with
  | nil => simp
  | cons x xs ih =>
    by_cases hx : x = i
    · simp [hx, List.filter_cons, ih]
    · simp only [List.foldl_cons, if_neg hx, ih, List.filter_cons]
      simp [hx, mul_assoc]

/-- If the characteristic of `F` exceeds `2^32` (or is zero), no nonzero
natural number below `2^32` maps to zero in `F`. -/
lemma natCast_ne_zero_of_large_char (F : Type) [Field F]
    (hchar : 2 ^ 32 < ringChar F ∨ ringChar F = 0)
    (n : ℕ) (h0 : 0 < n) (h1 : n < 2 ^ 32) : (n : F) ≠ 0 := by
  intro h
  have hdvd : ringChar F ∣ n := (ringChar.spec F n).mp h
  rcases hchar with hgt | hzero
  · have hle : ringChar F ≤ n := Nat.le_of_dvd h0 hdvd
    omega
  · rw [hzero] at hdvd
    have hn : n = 0 := zero_dvd_iff.mp hdvd
    omega

/-- Distinct `u32` indices stay distinct in a scalar field whose
characteristic exceeds `2^32`. -/
lemma cast_sub_ne_zero (F : Type) [Field F]
    (hchar : 2 ^ 32 < ringChar F ∨ ringChar F = 0)
    (i j : ℕ) (hi : i < 2 ^ 32) (hj : j < 2 ^ 32) (hne : j ≠ i) :
    (j : F) - (i : F) ≠ 0 := by
  rcases Nat.lt_or_ge i j with hlt | hge
  · have hsub : ((j - i : ℕ) : F) = (j : F) - (i : F) := by
      push_cast [Nat.cast_sub (le_of_lt hlt)]; ring
    rw [← hsub]
    exact natCast_ne_zero_of_large_char F hchar (j - i) (by omega) (by omega)
  · have hlt2 : j < i := lt_of_le_of_ne hge hne
    have hsub : ((i - j : ℕ) : F) = (i : F) - (j : F) := by
      push_cast [Nat.cast_sub (le_of_lt hlt2)]; ring
    intro h
    have h2 : ((i - j : ℕ) : F) = 0 := by rw [hsub]; linear_combination -h
    exact natCast_ne_zero_of_large_char F hchar (i - j) (by omega) (by omega) h2

/-- Product of pointwise quotients equals the quotient of the products. -/
lemma list_prod_map_div {α F : Type} [Field F] (l : List α) (f g : α → F) :
    (l.map (fun x => f x / g x)).prod = (l.map f).prod / (l.map g).prod := by
  induction l with
  | nil => simp
  | cons x xs ih => simp [ih, div_mul_div_comm]

/-- The Lagrange computation never reaches its error branch for `u32`
indices over a scalar field of characteristic greater than `2^32`, and it
returns the product of `j / (j - i)` over the indices `j` that differ
from `i`. -/
lemma calcLagrange_eq_ok (F : Type) [Field F] [DecidableEq F]
    (hchar : 2 ^ 32 < ringChar F ∨ ringChar F = 0)
    (i : ℕ) (I : List ℕ) (hi : i < 2 ^ 32) (hI : ∀ j ∈ I, j < 2 ^ 32) :
    calculate_lagrange_coefficients F i I =
      Except.ok (((I.filter (fun j => j != i)).map
        (fun (j : ℕ) => (j : F) / ((j : F) - (i : F)))).prod) := by
  unfold calculate_lagrange_coefficients
  simp only [lagrange_foldl F i I 1 1, one_mul]
  have hden : ((I.filter (fun j => j != i)).map (fun (j : ℕ) => (j : F) - (i : F))).prod ≠ 0 := by
    apply List.prod_ne_zero
    intro hmem
    simp only [List.mem_map, List.mem_filter] at hmem
    obtain ⟨j, ⟨hjI, hjne⟩, hj0⟩ := hmem
    exact cast_sub_ne_zero F hchar i j hi (hI j hjI) (by simpa using hjne) hj0
  rw [if_neg hden]
  rw [list_prod_map_div (I.filter (fun j => j != i)) (fun (j : ℕ) => (j : F))
    (fun (j : ℕ) => (j : F) - (i : F))]
  rw [div_eq_mul_inv]

section VerifyingKeys

variable {G : Type} [AddCommGroup G]

/-- Embedding of `VerifiableSecretSharingCommitment`: the dealer's index
together with the ordered commitment points `φ₀, …, φ_{t-1}`. -/
structure VerifiableSecretSharingCommitment (G : Type) where
  index : ℕ
  points : List G
deriving DecidableEq

/-- Embedding of `IndividualVerifyingKey` from `src/keys.rs`. -/
structure IndividualVerifyingKey (G : Type) where
  index : ℕ
  share : G
deriving DecidableEq

end VerifyingKeys

/-- The Horner loop shared by `IndividualVerifyingKey::verify` and
`IndividualVerifyingKey::generate_from_commitments`
(`for (index, com) in commitment.points.iter().rev().enumerate()`):
walk the reversed point list, add the point, and multiply by `term`
except after the last iteration. -/
def evalCommitmentPoints (F G : Type) [Field F] [AddCommGroup G] [Module F G]
    (term : F) (points : List G) : G :=
  (points.reverse.enum).foldl
    (fun tmp p => if p.1 ≠ points.length - 1 then term • (tmp + p.2) else tmp + p.2)
    0

/-- Embedding of `IndividualVerifyingKey::generate_from_commitments`
(`src/keys.rs` lines 187-218).  The `.unwrap()` on the Lagrange call is
modelled by `Option`: a `none` result corresponds to a panic. -/
def generate_from_commitments (F G : Type) [Field F] [DecidableEq F]
    [AddCommGroup G] [Module F G]
    (participant_index : ℕ)
    (commitments : List (VerifiableSecretSharingCommitment G)) :
    Option (IndividualVerifyingKey G) :=
  let term : F := (participant_index : F)
  let index_vector : List ℕ := commitments.map (fun c => c.index)
  let share : Option G := commitments.foldl
    (fun acc c =>
      acc.bind fun s =>
        (calculate_lagrange_coefficients F c.index index_vector).toOption.map
          fun coeff => s + coeff • evalCommitmentPoints F G term c.points)
    (some 0)
  share.map fun s => ⟨participant_index, s⟩

/-- Embedding of `IndividualVerifyingKey::verify` (`src/keys.rs` lines
131-166): same accumulation as `generate_from_commitments`, but a failed
Lagrange call is surfaced as a `Custom` error and the result is compared
against the stored share, with `ShareVerificationError` on mismatch. -/
def IndividualVerifyingKey.verify (F : Type) {G : Type} [Field F] [DecidableEq F]
    [AddCommGroup G] [Module F G] [DecidableEq G]
    (self : IndividualVerifyingKey G)
    (commitments : List (VerifiableSecretSharingCommitment G)) :
    Except Error Unit :=
  let term : F := (self.index : F)
  let index_vector : List ℕ := commitments.map (fun c => c.index)
  let rhs : Except Error G := commitments.foldl
    (fun acc c =>
      match acc with
      | Except.error e => Except.error e
      | Except.ok s =>
        match calculate_lagrange_coefficients F c.index index_vector with
        | Except.error msg => Except.error (Error.Custom msg)
        | Except.ok coeff =>
            Except.ok (s + coeff • evalCommitmentPoints F G term c.points))
    (Except.ok 0)
  match rhs with
  | Except.error e => Except.error e
  | Except.ok r => if self.share = r then Except.ok () else Except.error Error.ShareVerificationError

/-- The scalar a successful Lagrange call returns (`0` as an unused
default on the error branch). -/
def lagGetD (F : Type) [Field F] [DecidableEq F] (i : ℕ) (iv : List ℕ) : F :=
  (calculate_lagrange_coefficients F i iv).toOption.getD 0

/-- When every Lagrange call succeeds, the error-propagating fold inside
`verify` returns the plain sum of Lagrange-weighted Horner evaluations. -/
lemma verify_foldl_ok (F G : Type) [Field F] [DecidableEq F]
    [AddCommGroup G] [Module F G]
    (iv : List ℕ) (term : F) (cs : List (VerifiableSecretSharingCommitment G))
    (hc : ∀ c ∈ cs, ∃ v, calculate_lagrange_coefficients F c.index iv = Except.ok v)
    (a : G) :
    cs.foldl
      (fun acc c =>
        match acc with
        | Except.error e => Except.error e
        | Except.ok s =>
          match calculate_lagrange_coefficients F c.index iv with
          | Except.error msg => Except.error (Error.Custom msg)
          | Except.ok coeff =>
              Except.ok (s + coeff • evalCommitmentPoints F G term c.points))
      (Except.ok a) =
    Except.ok (cs.foldl
      (fun s c => s + lagGetD F c.index iv • evalCommitmentPoints F G term c.points)
      a) := by
  induction cs generalizing a with
  | nil => simp
  | cons c cs ih =>
    obtain ⟨v, hv⟩ := hc c (by simp)
    have hvd : lagGetD F c.index iv = v := by simp [lagGetD, hv, Except.toOption]
    simp only [List.foldl_cons, hv, hvd]
    exact ih (fun d hd => hc d (by simp [hd])) _

/-- When every Lagrange call succeeds, the panic-propagating fold inside
`generate_from_commitments` returns the same plain sum. -/
lemma generate_foldl_some (F G : Type) [Field F] [DecidableEq F]
    [AddCommGroup G] [Module F G]
    (iv : List ℕ) (term : F) (cs : List (VerifiableSecretSharingCommitment G))
    (hc : ∀ c ∈ cs, ∃ v, calculate_lagrange_coefficients F c.index iv = Except.ok v)
    (a : G) :
    cs.foldl
      (fun acc c =>
        acc.bind fun s =>
          (calculate_lagrange_coefficients F c.index iv).toOption.map
            fun coeff => s + coeff • evalCommitmentPoints F G term c.points)
      (some a) =
    some (cs.foldl
      (fun s c => s + lagGetD F c.index iv • evalCommitmentPoints F G term c.points)
      a) := by
  induction cs generalizing a with
  | nil => simp
  | cons c cs ih =>
    obtain ⟨v, hv⟩ := hc c (by simp)
    have hvd : lagGetD F c.index iv = v := by simp [lagGetD, hv, Except.toOption]
    simp only [List.foldl_cons, hv, hvd, Option.bind_some, Except.toOption, Option.map_some]
    exact ih (fun d hd => hc d (by simp [hd])) _

/-- Every Lagrange call made by `generate_from_commitments` succeeds when
the commitment indices are `u32` values and the field characteristic
exceeds `2^32`. -/
lemma lagrange_calls_ok {G : Type} (F : Type) [Field F] [DecidableEq F]
    (hchar : 2 ^ 32 < ringChar F ∨ ringChar F = 0)
    (cs : List (VerifiableSecretSharingCommitment G))
    (hcs : ∀ c ∈ cs, c.index < 2 ^ 32) :
    ∀ c ∈ cs, ∃ v,
      calculate_lagrange_coefficients F c.index (cs.map (fun c => c.index)) =
        Except.ok v := by
  intro c hcmem
  refine ⟨_, calcLagrange_eq_ok F hchar c.index _ (hcs c hcmem) ?_⟩
  intro j hj
  simp only [List.mem_map] at hj
  obtain ⟨d, hd, rfl⟩ := hj
  exact hcs d hd

/-- C1 counterexample: the spec requires `calculate_lagrange_coefficients`
to fail with a duplicate-shares error when `i` occurs more than once in
`I` and when `I` is empty; the code skips every occurrence of `i` via
`continue` and succeeds on both inputs, returning `Ok(1)`. -/
theorem lagrange_counterexample :
    calculate_lagrange_coefficients ℚ 1 [1, 1] = Except.ok 1 ∧
    calculate_lagrange_coefficients ℚ 1 [] = Except.ok 1 := by
  constructor <;> norm_num [calculate_lagrange_coefficients]

/-- C1 (amended): `calculate_lagrange_coefficients i I` never fails for
`u32` indices over a scalar field whose characteristic exceeds `2^32`
(or is zero): occurrences of `j = i` are skipped rather than rejected, an
empty `I` yields the empty product `1`, and in all cases the result is
`λᵢ = Π_{j ∈ I, j ≠ i} j / (j − i)`. -/
theorem lagrange_value (F : Type) [Field F] [DecidableEq F]
    (hchar : 2 ^ 32 < ringChar F ∨ ringChar F = 0)
    (i : ℕ) (I : List ℕ) (hi : i < 2 ^ 32) (hI : ∀ j ∈ I, j < 2 ^ 32) :
    calculate_lagrange_coefficients F i I =
      Except.ok (((I.filter (fun j => j != i)).map
        (fun (j : ℕ) => (j : F) / ((j : F) - (i : F)))).prod) :=
  calcLagrange_eq_ok F hchar i I hi hI

/-- C1 witness: at `i = 1`, `I = [2, 3]` over `ℚ` (characteristic zero,
hence above `2^32`) the hypotheses of `lagrange_value` hold and the
computation returns the product formula. -/
theorem lagrange_value_witness :
    ((2 : ℕ) ^ 32 < ringChar ℚ ∨ ringChar ℚ = 0) ∧
    1 < 2 ^ 32 ∧ 2 < 2 ^ 32 ∧ 3 < 2 ^ 32 ∧
    calculate_lagrange_coefficients ℚ 1 [2, 3] =
      Except.ok ((([2, 3].filter (fun j => j != 1)).map
        (fun (j : ℕ) => (j : ℚ) / ((j : ℚ) - (1 : ℚ)))).prod) :=
  ⟨Or.inr ringChar.eq_zero, by decide, by decide, by decide,
    lagrange_value ℚ (Or.inr ringChar.eq_zero) 1 [2, 3] (by decide)
      (by intro j hj; fin_cases hj <;> decide)⟩

/-- C9: for `u32` indices over a scalar field of characteristic greater
than `2^32` (or zero), `calculate_lagrange_coefficients` always returns
`Ok` — the zero-denominator error branch and the `inverse().unwrap()` are
unreachable because every `j = i` is skipped and `j − i ≠ 0` in the field
for `j ≠ i` — and consequently `generate_from_commitments`, which unwraps
this call, never panics (modelled: never returns `none`). -/
theorem lagrange_total (F G : Type) [Field F] [DecidableEq F]
    [AddCommGroup G] [Module F G]
    (hchar : 2 ^ 32 < ringChar F ∨ ringChar F = 0)
    (i : ℕ) (I : List ℕ) (hi : i < 2 ^ 32) (hI : ∀ j ∈ I, j < 2 ^ 32)
    (idx : ℕ) (cs : List (VerifiableSecretSharingCommitment G))
    (hcs : ∀ c ∈ cs, c.index < 2 ^ 32) :
    (calculate_lagrange_coefficients F i I).isOk = true ∧
    (generate_from_commitments F G idx cs).isSome = true := by
  constructor
  · rw [calcLagrange_eq_ok F hchar i I hi hI]
    rfl
  · simp only [generate_from_commitments]
    rw [generate_foldl_some F G (cs.map (fun c => c.index)) (idx : F) cs
      (lagrange_calls_ok F hchar cs hcs) 0]
    rfl

/-- C9 witness: over `ℚ` with `i = 1`, `I = [2, 3]` and two commitments
of indices `1` and `3`, the hypotheses hold and both computations
succeed. -/
theorem lagrange_total_witness :
    ((2 : ℕ) ^ 32 < ringChar ℚ ∨ ringChar ℚ = 0) ∧
    ((calculate_lagrange_coefficients ℚ 1 [2, 3]).isOk = true ∧
     (generate_from_commitments ℚ ℚ 2
        [⟨1, [1]⟩, ⟨3, [2]⟩]).isSome = true) :=
  ⟨Or.inr ringChar.eq_zero,
    lagrange_total ℚ ℚ (Or.inr ringChar.eq_zero) 1 [2, 3] (by decide)
      (by intro j hj; fin_cases hj <;> decide) 2 [⟨1, [1]⟩, ⟨3, [2]⟩]
      (by intro c hc; fin_cases hc <;> decide)⟩

/-- Case analysis common to the two conjuncts of the C2 statement, over
an arbitrary recomputed share `R`. -/
lemma verify_generate_of_eqs {G : Type} [DecidableEq G]
    (v : Except Error Unit) (g : Option (IndividualVerifyingKey G))
    (k : IndividualVerifyingKey G) (R : G)
    (hver : v = if k.share = R then Except.ok ()
      else Except.error Error.ShareVerificationError)
    (hgen : g = some ⟨k.index, R⟩) :
    (v = Except.ok () ↔ g = some ⟨k.index, k.share⟩) ∧
    (v ≠ Except.ok () → v = Except.error Error.ShareVerificationError) := by
  subst hver hgen
  by_cases h : k.share = R
  · simp [h]
  · simp [h, Ne.symm h]

/-- C2: `verify` succeeds exactly when the stored share coincides with
the share recomputed by `generate_from_commitments` at the same index,
and any mismatch surfaces as `ShareVerificationError`.  The hypotheses
state that the commitment indices are `u32` values and that the scalar
field has characteristic above `2^32`, as in the crate. -/
theorem verify_iff_generate (F G : Type) [Field F] [DecidableEq F]
    [AddCommGroup G] [Module F G] [DecidableEq G]
    (hchar : 2 ^ 32 < ringChar F ∨ ringChar F = 0)
    (k : IndividualVerifyingKey G)
    (cs : List (VerifiableSecretSharingCommitment G))
    (hcs : ∀ c ∈ cs, c.index < 2 ^ 32) :
    (IndividualVerifyingKey.verify F k cs = Except.ok () ↔
      generate_from_commitments F G k.index cs = some ⟨k.index, k.share⟩) ∧
    (IndividualVerifyingKey.verify F k cs ≠ Except.ok () →
      IndividualVerifyingKey.verify F k cs = Except.error Error.ShareVerificationError) := by
  have hc := lagrange_calls_ok F hchar cs hcs
  have hver : IndividualVerifyingKey.verify F k cs =
      (if k.share = cs.foldl
          (fun s c => s + lagGetD F c.index (cs.map (fun c => c.index)) •
            evalCommitmentPoints F G (k.index : F) c.points) 0
        then Except.ok () else Except.error Error.ShareVerificationError) := by
    simp only [IndividualVerifyingKey.verify]
    rw [verify_foldl_ok F G (cs.map (fun c => c.index)) (k.index : F) cs hc 0]
  have hgen : generate_from_commitments F G k.index cs =
      some ⟨k.index, cs.foldl
        (fun s c => s + lagGetD F c.index (cs.map (fun c => c.index)) •
          evalCommitmentPoints F G (k.index : F) c.points) 0⟩ := by
    simp only [generate_from_commitments]
    rw [generate_foldl_some F G (cs.map (fun c => c.index)) (k.index : F) cs hc 0]
    rfl
  exact verify_generate_of_eqs _ _ k _ hver hgen

/-- C2 witness: over `ℚ` with `k = ⟨1, 5⟩` and the single commitment
`⟨1, [5]⟩`, the hypotheses hold and the equivalence is established. -/
theorem verify_iff_generate_witness :
    ((2 : ℕ) ^ 32 < ringChar ℚ ∨ ringChar ℚ = 0) ∧
    ((IndividualVerifyingKey.verify ℚ (⟨1, 5⟩ : IndividualVerifyingKey ℚ)
        [⟨1, [5]⟩] = Except.ok () ↔
      generate_from_commitments ℚ ℚ 1 [⟨1, [5]⟩] = some ⟨1, 5⟩) ∧
     (IndividualVerifyingKey.verify ℚ (⟨1, 5⟩ : IndividualVerifyingKey ℚ)
        [⟨1, [5]⟩] ≠ Except.ok () →
      IndividualVerifyingKey.verify ℚ (⟨1, 5⟩ : IndividualVerifyingKey ℚ)
        [⟨1, [5]⟩] = Except.error Error.ShareVerificationError)) :=
  ⟨Or.inr ringChar.eq_zero,
    verify_iff_generate ℚ ℚ (Or.inr ringChar.eq_zero) ⟨1, 5⟩ [⟨1, [5]⟩]
      (by intro c hc; fin_cases hc; decide)⟩

/-- Modelled from the spec: `NizkPokOfSecretKey` (the NIZK module is not
among the provided sources) is a Schnorr proof; following §4.2 of the
spec it is the pair `(R, z)` with `R = k·B` and `z = k + c·secret`. -/
structure NizkPokOfSecretKey (F G : Type) where
  R : G
  z : F
deriving DecidableEq

/-- Embedding of the `Participant` struct of `src/dkg/participant.rs`
(lines 26-43): index, DH public key, optional commitments, optional proof
of the secret key, and the proof of the DH private key. -/
structure Participant (F G : Type) where
  index : ℕ
  dh_public_key : G
  commitments : Option (VerifiableSecretSharingCommitment G)
  proof_of_secret_key : Option (NizkPokOfSecretKey F G)
  proof_of_dh_private_key : NizkPokOfSecretKey F G
deriving DecidableEq

/-- Embedding of the `PartialOrd` implementation for `Participant`
(`src/dkg/participant.rs` lines 299-307): compare the `u32` indices and
return `None` on equality. -/
def Participant.cmpIndexOrder {F G : Type} (a b : Participant F G) : Option Ordering :=
  match compare a.index b.index with
  | Ordering.lt => some Ordering.lt
  | Ordering.eq => none
  | Ordering.gt => some Ordering.gt

/-- Embedding of the `PartialEq` implementation for `Participant`
(`src/dkg/participant.rs` lines 309-313): equality of the indices only. -/
def Participant.eqIndices {F G : Type} (a b : Participant F G) : Bool :=
  a.index == b.index

/-- C8: `partial_cmp` on two Participants returns `Some(Less)` exactly
when the first index is smaller, `Some(Greater)` exactly when it is
larger, and `None` exactly when the indices are equal. -/
theorem cmpIndexOrder_spec (F G : Type) (a b : Participant F G) :
    (Participant.cmpIndexOrder a b = some Ordering.lt ↔ a.index < b.index) ∧
    (Participant.cmpIndexOrder a b = some Ordering.gt ↔ b.index < a.index) ∧
    (Participant.cmpIndexOrder a b = none ↔ a.index = b.index) := by
  unfold Participant.cmpIndexOrder
  rcases Nat.lt_trichotomy a.index b.index with h | h | h
  · rw [Nat.compare_eq_lt.mpr h]
    refine ⟨by simp [h], by simp; omega, by simp; omega⟩
  · rw [Nat.compare_eq_eq.mpr h]
    refine ⟨by simp; omega, by simp; omega, by simp [h]⟩
  · rw [Nat.compare_eq_gt.mpr h]
    refine ⟨by simp; omega, by simp [h], by simp; omega⟩

/-- C10: `PartialEq` on Participants holds exactly when the indices
agree, ignoring the DH public keys, commitments and proofs (which are
universally quantified here). -/
theorem eqIndices_spec (F G : Type) (a b : Participant F G) :
    Participant.eqIndices a b = true ↔ a.index = b.index := by
  simp [Participant.eqIndices]

/-- Draw `n` scalars from the stream (the `for _ in 1..t` sampling loop),
returning them with the advanced stream. -/
def drawN (F : Type) : ℕ → RngF F → List F × RngF F
  | 0, s => ([], s)
  | n + 1, s =>
    let r := drawN F n (RngF.shift s 1)
    (s 0 :: r.1, r.2)

lemma drawN_length (F : Type) (n : ℕ) (s : RngF F) : (drawN F n s).1.length = n := by
  induction n generalizing s with
  | zero => rfl
  | succ n ih => simp [drawN, ih]

/-- Modelled from the spec: `NizkPokOfSecretKey::prove` (§4.2) draws a
nonce `k`, sets `R = k·B` and `z = k + c·secret` with
`c = hash(index, public, R)`; the hash is an abstract parameter. -/
def NizkPokOfSecretKey.prove (F G : Type) [Field F] [AddCommGroup G] [Module F G]
    (B : G) (hash : ℕ → G → G → F) (index : ℕ) (secret : F) (pub : G)
    (s : RngF F) : NizkPokOfSecretKey F G × RngF F :=
  let k := s 0
  let Rp := k • B
  (⟨Rp, k + hash index pub Rp * secret⟩, RngF.shift s 1)

/-- Embedding of `Participant::new_internal` (`src/dkg/participant.rs`
lines 117-210).  The generator and the NIZK hash are parameters; the
`u32` threshold `t` stands for `parameters.t`.  In dealer mode the
first coefficient is the supplied secret key when present and a fresh
draw otherwise, the remaining `t − 1` coefficients are drawn, the
commitment points are `coefficients[j]·B` for `j < t`, and
`commitments.public_key()` (the head of the point list, per the spec:
`φ₀` is the dealer's public key contribution) feeds the proof of the
secret key. -/
def new_internal (F G : Type) [Field F] [AddCommGroup G] [Module F G]
    (B : G) (hash : ℕ → G → G → F) (t : ℕ) (is_signer : Bool) (index : ℕ)
    (secret_key : Option F) (s : RngF F) :
    Participant F G × Option (List F) × F :=
  let dh_private_key := s 0
  let s1 := RngF.shift s 1
  let dh_public_key := dh_private_key • B
  let pr := NizkPokOfSecretKey.prove F G B hash index dh_private_key dh_public_key s1
  let proof_of_dh_private_key := pr.1
  let s2 := pr.2
  if is_signer then
    (⟨index, dh_public_key, none, none, proof_of_dh_private_key⟩, none, dh_private_key)
  else
    let cd : F × RngF F :=
      match secret_key with
      | some sk => (sk, s2)
      | none => (s2 0, RngF.shift s2 1)
    let rest := drawN F (t - 1) cd.2
    let coefficients := cd.1 :: rest.1
    let points := (List.range t).map fun j => coefficients.getD j 0 • B
    let psk := NizkPokOfSecretKey.prove F G B hash index cd.1 (points.headD 0) rest.2
    (⟨index, dh_public_key, some ⟨index, points⟩, some psk.1, proof_of_dh_private_key⟩,
     some coefficients, dh_private_key)

/-- Embedding of `Participant::new_dealer` (`src/dkg/participant.rs`
lines 75-83): `new_internal` in dealer mode with no preset secret; the
`coeff_option.unwrap()` is modelled by `Option.getD` (the dealer branch
always returns `some`). -/
def new_dealer (F G : Type) [Field F] [AddCommGroup G] [Module F G]
    (B : G) (hash : ℕ → G → G → F) (t index : ℕ) (s : RngF F) :
    Participant F G × List F × F :=
  let r := new_internal F G B hash t false index none s
  (r.1, r.2.1.getD [], r.2.2)

/-- Helper: mapping the positional lookups of a list over its own index
range is the same as mapping the function directly. -/
lemma range_map_getD {α β : Type} (l : List α) (d : α) (f : α → β) :
    (List.range l.length).map (fun j => f (l.getD j d)) = l.map f := by
  induction l with
  | nil => simp
  | cons x xs ih =>
    simp only [List.length_cons, List.range_succ_eq_map, List.map_cons, List.getD_cons_zero,
      List.map_map]
    refine congrArg (f x :: ·) ?_
    have : ((fun j => f ((x :: xs).getD j d)) ∘ Nat.succ) = fun j => f (xs.getD j d) := by
      funext j; simp
    rw [this, ih]

/-- Helper: the commitment-point loop `for j in 0..t` over a coefficient
list of length `t` commits every coefficient in order. -/
lemma points_eq_map_smul (F G : Type) [Field F] [AddCommGroup G] [Module F G]
    (B : G) (t : ℕ) (coeffs : List F) (h : coeffs.length = t) :
    (List.range t).map (fun j => coeffs.getD j 0 • B) = coeffs.map (fun a => a • B) := by
  subst h
  exact range_map_getD coeffs 0 (fun a => a • B)

/-- C4: `new_dealer` returns exactly `t` coefficients, a participant
whose commitments are present with points `coefficients[j]·B` for every
`j < t` (hence `points.len() = t`), and a present proof of the secret
key.  `1 ≤ t` is the `ThresholdParameters` invariant. -/
theorem new_dealer_spec (F G : Type) [Field F] [AddCommGroup G] [Module F G]
    (B : G) (hash : ℕ → G → G → F) (t index : ℕ) (s : RngF F) (ht : 1 ≤ t) :
    ((new_dealer F G B hash t index s).2.1).length = t ∧
    (new_dealer F G B hash t index s).1.commitments =
      some ⟨index, ((new_dealer F G B hash t index s).2.1).map (fun a => a • B)⟩ ∧
    ((new_dealer F G B hash t index s).1.proof_of_secret_key).isSome = true := by
  refine ⟨?_, ?_, ?_⟩
  · simp only [new_dealer, new_internal, Bool.false_eq_true, if_false, Option.getD_some]
    simp only [List.length_cons, drawN_length]
    omega
  · simp only [new_dealer, new_internal, Bool.false_eq_true, if_false, Option.getD_some]
    rw [points_eq_map_smul F G B t _ (by simp only [List.length_cons, drawN_length]; omega)]
  · simp [new_dealer, new_internal]

/-- C4 witness: with `t = 2` the hypothesis `1 ≤ t` holds and the
conclusion is instantiated at a concrete dealer over `ℚ`. -/
theorem new_dealer_spec_witness :
    1 ≤ 2 ∧
    (((new_dealer ℚ ℚ 1 (fun _ _ _ => 0) 2 7 (fun n => (n : ℚ))).2.1).length = 2 ∧
     (new_dealer ℚ ℚ 1 (fun _ _ _ => 0) 2 7 (fun n => (n : ℚ))).1.commitments =
       some ⟨7, ((new_dealer ℚ ℚ 1 (fun _ _ _ => 0) 2 7 (fun n => (n : ℚ))).2.1).map
         (fun a => a • (1 : ℚ))⟩ ∧
     ((new_dealer ℚ ℚ 1 (fun _ _ _ => 0) 2 7
        (fun n => (n : ℚ))).1.proof_of_secret_key).isSome = true) :=
  ⟨by decide, new_dealer_spec ℚ ℚ 1 (fun _ _ _ => 0) 2 7 (fun n => (n : ℚ)) (by decide)⟩

/-- Embedding of `IndividualSigningKey` from `src/keys.rs`: the
participant index and the long-lived secret share. -/
structure IndividualSigningKey (F : Type) where
  index : ℕ
  key : F
deriving DecidableEq

/-- Embedding of `Participant::reshare` (`src/dkg/participant.rs` lines
235-270).  The round-one transition
`DistributedKeyGeneration::new_state_internal` lives in a source file
that is not part of the provided sources, so it is abstracted as the
parameter `round1` (receiving the threshold, the fresh DH private key,
the dealer index, the coefficient list and the signer list, and
returning the encrypted shares and the participant lists); `reshare`
forwards its outputs unchanged, which is all the claims require.  The
dealer itself is produced by `new_internal` in dealer mode with the
supplied signing share as the constant coefficient, exactly as in the
source. -/
def reshare (F G ε δ : Type) [Field F] [AddCommGroup G] [Module F G]
    (B : G) (hash : ℕ → G → G → F)
    (round1 : ℕ → F → ℕ → List F → List (Participant F G) → Except Error (List ε × δ))
    (t : ℕ) (secret_key : IndividualSigningKey F)
    (signers : List (Participant F G)) (s : RngF F) :
    Except Error (Participant F G × List ε × δ) :=
  let r := new_internal F G B hash t false secret_key.index (some secret_key.key) s
  let dealer := r.1
  let coefficients := r.2.1.getD []
  match round1 t r.2.2 secret_key.index coefficients signers with
  | Except.error e => Except.error e
  | Except.ok sl => Except.ok (dealer, sl.1, sl.2)

/-- C3: whenever `reshare` succeeds, the dealer Participant it returns
carries the index of the supplied signing key and commitments whose
constant-term point `φ₀` is `secret_key.key · B` — the new dealer
polynomial's constant coefficient is exactly the supplied signing
share.  `1 ≤ t` is the `ThresholdParameters` invariant, and the round-one
transition is universally quantified, so the result holds for any
behaviour of the DKG state machine. -/
theorem reshare_dealer_spec (F G ε δ : Type) [Field F] [AddCommGroup G] [Module F G]
    (B : G) (hash : ℕ → G → G → F)
    (round1 : ℕ → F → ℕ → List F → List (Participant F G) → Except Error (List ε × δ))
    (t : ℕ) (secret_key : IndividualSigningKey F)
    (signers : List (Participant F G)) (s : RngF F) (ht : 1 ≤ t)
    (dealer : Participant F G) (shares : List ε) (lists : δ)
    (hok : reshare F G ε δ B hash round1 t secret_key signers s =
      Except.ok (dealer, shares, lists)) :
    dealer.index = secret_key.index ∧
    dealer.commitments.bind (fun cm => cm.points.head?) =
      some (secret_key.key • B) := by
  simp only [reshare] at hok
  rcases hr : round1 t
      (new_internal F G B hash t false secret_key.index (some secret_key.key) s).2.2
      secret_key.index
      ((new_internal F G B hash t false secret_key.index (some secret_key.key) s).2.1.getD [])
      signers with e | sl
  · rw [hr] at hok
    exact absurd hok (by simp)
  · rw [hr] at hok
    simp only [Except.ok.injEq, Prod.mk.injEq] at hok
    obtain ⟨hd, -, -⟩ := hok
    subst hd
    constructor
    · simp [new_internal]
    · simp only [new_internal, Bool.false_eq_true, if_false]
      obtain ⟨t0, rfl⟩ : ∃ t0, t = t0 + 1 := ⟨t - 1, by omega⟩
      simp [List.range_succ_eq_map]

/-- C3 witness: a concrete resharing over `ZMod 2` with a trivial
round-one transition; all hypotheses are discharged at this input. -/
theorem reshare_dealer_spec_witness :
    1 ≤ 1 ∧
    reshare (ZMod 2) (ZMod 2) Unit Unit 1 (fun _ _ _ => 0)
      (fun _ _ _ _ _ => Except.ok ([], ())) 1 ⟨5, 1⟩ [] (fun _ => 0) =
      Except.ok (⟨5, 0, some ⟨5, [1]⟩, some ⟨0, 0⟩, ⟨0, 0⟩⟩, [], ()) ∧
    ((⟨5, 0, some ⟨5, [1]⟩, some ⟨0, 0⟩, ⟨0, 0⟩⟩ : Participant (ZMod 2) (ZMod 2)).index = 5 ∧
     (⟨5, 0, some ⟨5, [1]⟩, some ⟨0, 0⟩, ⟨0, 0⟩⟩ : Participant (ZMod 2)
        (ZMod 2)).commitments.bind (fun cm => cm.points.head?) =
       some ((1 : ZMod 2) • (1 : ZMod 2))) :=
  ⟨by decide, by decide,
    reshare_dealer_spec (ZMod 2) (ZMod 2) Unit Unit 1 (fun _ _ _ => 0)
      (fun _ _ _ _ _ => Except.ok ([], ())) 1 ⟨5, 1⟩ [] (fun _ => 0) (by decide)
      ⟨5, 0, some ⟨5, [1]⟩, some ⟨0, 0⟩, ⟨0, 0⟩⟩ [] () (by decide)⟩

/-- Embedding of the `Commitment` pair of `src/sign/precomputation.rs`
(a secret scalar and its commitment point).  Its `PartialEq` compares
the secret and the affine form of the point, which is structural
equality in this model. -/
structure Commitment (F G : Type) where
  secret : F
  commit : G
deriving DecidableEq

/-- Embedding of `CommitmentShare`: a hiding and a binding
`Commitment`.  `PartialEq` is the conjunction of the component
equalities. -/
structure CommitmentShare (F G : Type) where
  «hiding» : Commitment F G
  binding : Commitment F G
deriving DecidableEq

/-- Embedding of `SecretCommitmentShareList`. -/
structure SecretCommitmentShareList (F G : Type) where
  commitments : List (CommitmentShare F G)
deriving DecidableEq

/-- Embedding of `PublicCommitmentShareList`. -/
structure PublicCommitmentShareList (G : Type) where
  participant_index : ℕ
  commitments : List (G × G)
deriving DecidableEq

/-- The scan loop of `drop_share` (`src/sign/precomputation.rs` lines
236-240): walk the list with a position counter, remembering the
position of every match in a signed accumulator that starts at `-1`;
the final value is the position of the last match. -/
def lastMatchIdx {F G : Type} [DecidableEq F] [DecidableEq G]
    (share : CommitmentShare F G) :
    List (CommitmentShare F G) → ℕ → ℤ → ℤ
  | [], _, acc => acc
  | c :: rest, i, acc =>
    lastMatchIdx share rest (i + 1) (if c = share then (i : ℤ) else acc)

/-- Embedding of `SecretCommitmentShareList::drop_share`
(`src/sign/precomputation.rs` lines 226-246): find the last element
equal to `share` and remove it; remove nothing when there is no match. -/
def drop_share (F G : Type) [DecidableEq F] [DecidableEq G]
    (l : List (CommitmentShare F G)) (share : CommitmentShare F G) :
    List (CommitmentShare F G) :=
  let index := lastMatchIdx share l 0 (-1)
  if 0 ≤ index then l.eraseIdx index.toNat else l

lemma lastMatchIdx_of_not_mem {F G : Type} [DecidableEq F] [DecidableEq G]
    (share : CommitmentShare F G) (l : List (CommitmentShare F G))
    (h : share ∉ l) (i : ℕ) (acc : ℤ) :
    lastMatchIdx share l i acc = acc := by
  induction l generalizing i acc with
  | nil => rfl
  | cons c rest ih =>
    have hc : ¬c = share := fun hce => h (by simp [hce])
    simp only [lastMatchIdx, if_neg hc]
    exact ih (fun hm => h (by simp [hm])) _ _

/-- Decomposition around the last occurrence: when `share ∈ l`, the list
splits as `l₁ ++ share :: l₂` with no occurrence in `l₂`, and the scan
returns the offset position of that occurrence. -/
lemma lastMatchIdx_of_mem {F G : Type} [DecidableEq F] [DecidableEq G]
    (share : CommitmentShare F G) (l : List (CommitmentShare F G))
    (h : share ∈ l) :
    ∃ l₁ l₂, l = l₁ ++ share :: l₂ ∧ share ∉ l₂ ∧
      ∀ (i : ℕ) (acc : ℤ), lastMatchIdx share l i acc = (i : ℤ) + l₁.length := by
  induction l with
  | nil => cases h
  | cons c rest ih =>
    by_cases hr : share ∈ rest
    · obtain ⟨l₁, l₂, heq, hnot, hidx⟩ := ih hr
      refine ⟨c :: l₁, l₂, by simp [heq], hnot, ?_⟩
      intro i acc
      simp only [lastMatchIdx]
      rw [hidx (i + 1)]
      push_cast [List.length_cons]
      ring
    · have hc : c = share := by
        rcases List.mem_cons.mp h with hh | hh
        · exact hh.symm
        · exact absurd hh hr
      refine ⟨[], rest, by simp [hc], hr, ?_⟩
      intro i acc
      simp only [lastMatchIdx, if_pos hc]
      rw [lastMatchIdx_of_not_mem share rest hr]
      simp

/-- Removing the element at the length of the left part of an append
removes exactly the head of the right part. -/
lemma eraseIdx_append_length {α : Type} (l₁ l₂ : List α) (x : α) :
    (l₁ ++ x :: l₂).eraseIdx l₁.length = l₁ ++ l₂ := by
  induction l₁ with
  | nil => rfl
  | cons y ys ih => simp [List.eraseIdx, ih]

/-- C5 counterexample: the spec promises that after `drop_share` the
list contains no element equal to the dropped share, but only the last
matching occurrence is removed: dropping `c` from `[c, c]` leaves `[c]`,
which still contains `c` (the length does decrease by exactly 1). -/
theorem drop_share_counterexample :
    drop_share (ZMod 2) (ZMod 2)
      [⟨⟨0, 0⟩, ⟨0, 0⟩⟩, ⟨⟨0, 0⟩, ⟨0, 0⟩⟩] ⟨⟨0, 0⟩, ⟨0, 0⟩⟩ =
      [⟨⟨0, 0⟩, ⟨0, 0⟩⟩] ∧
    (⟨⟨0, 0⟩, ⟨0, 0⟩⟩ : CommitmentShare (ZMod 2) (ZMod 2)) ∈
      drop_share (ZMod 2) (ZMod 2)
        [⟨⟨0, 0⟩, ⟨0, 0⟩⟩, ⟨⟨0, 0⟩, ⟨0, 0⟩⟩] ⟨⟨0, 0⟩, ⟨0, 0⟩⟩ := by
  constructor
  · decide
  · decide

/-- C5 (amended): `drop_share` removes exactly the last occurrence of
`c`: the length decreases by exactly 1 when some element equals `c` and
by 0 otherwise (unknown shares are silently ignored), and the
multiplicity of `c` decreases by exactly one — so no element equal to
`c` remains only in the case that `c` occurred at most once. -/
theorem drop_share_spec (F G : Type) [DecidableEq F] [DecidableEq G]
    (l : List (CommitmentShare F G)) (c : CommitmentShare F G) :
    (c ∈ l → (drop_share F G l c).length + 1 = l.length ∧
      (drop_share F G l c).count c + 1 = l.count c) ∧
    (c ∉ l → drop_share F G l c = l) ∧
    (l.count c ≤ 1 → c ∉ drop_share F G l c) := by
  by_cases hm : c ∈ l
  · obtain ⟨l₁, l₂, heq, hnot, hidx⟩ := lastMatchIdx_of_mem c l hm
    have hdrop : drop_share F G l c = l₁ ++ l₂ := by
      unfold drop_share
      rw [hidx 0 (-1)]
      simp only [Nat.cast_zero, zero_add, Int.toNat_natCast]
      rw [if_pos (Int.natCast_nonneg _), heq, eraseIdx_append_length]
    have hc2 : l₂.count c = 0 := List.count_eq_zero.mpr hnot
    refine ⟨fun _ => ⟨?_, ?_⟩, fun habs => absurd hm habs, ?_⟩
    · rw [hdrop, heq]; simp only [List.length_append, List.length_cons]; omega
    · rw [hdrop, heq]
      simp [List.count_append, hc2, List.count_cons_self]
    · intro hcount
      rw [heq, List.count_append, List.count_cons_self, hc2] at hcount
      have hc1 : l₁.count c = 0 := by omega
      rw [hdrop]
      intro habs
      rcases List.mem_append.mp habs with hmem | hmem
      · exact absurd (List.count_eq_zero.mp hc1) (fun hni => hni hmem)
      · exact hnot hmem
  · have hdrop : drop_share F G l c = l := by
      unfold drop_share
      rw [lastMatchIdx_of_not_mem c l hm 0 (-1)]
      simp
    refine ⟨fun habs => absurd habs hm, fun _ => hdrop, fun _ => ?_⟩
    rw [hdrop]; exact hm

/-- C5 witness: dropping the unique share of a singleton list removes it
entirely; all three hypotheses are discharged at this input. -/
theorem drop_share_spec_witness :
    (⟨⟨0, 0⟩, ⟨0, 0⟩⟩ : CommitmentShare (ZMod 2) (ZMod 2)) ∈
      [(⟨⟨0, 0⟩, ⟨0, 0⟩⟩ : CommitmentShare (ZMod 2) (ZMod 2))] ∧
    ([(⟨⟨0, 0⟩, ⟨0, 0⟩⟩ : CommitmentShare (ZMod 2) (ZMod 2))].count
      ⟨⟨0, 0⟩, ⟨0, 0⟩⟩ ≤ 1) ∧
    ((drop_share (ZMod 2) (ZMod 2) [⟨⟨0, 0⟩, ⟨0, 0⟩⟩] ⟨⟨0, 0⟩, ⟨0, 0⟩⟩).length + 1 = 1 ∧
     (drop_share (ZMod 2) (ZMod 2) [⟨⟨0, 0⟩, ⟨0, 0⟩⟩] ⟨⟨0, 0⟩, ⟨0, 0⟩⟩).count
       ⟨⟨0, 0⟩, ⟨0, 0⟩⟩ + 1 = 1) ∧
    (⟨⟨0, 0⟩, ⟨0, 0⟩⟩ : CommitmentShare (ZMod 2) (ZMod 2)) ∉
      drop_share (ZMod 2) (ZMod 2) [⟨⟨0, 0⟩, ⟨0, 0⟩⟩] ⟨⟨0, 0⟩, ⟨0, 0⟩⟩ :=
  ⟨by decide, by decide,
    ((drop_share_spec (ZMod 2) (ZMod 2) [⟨⟨0, 0⟩, ⟨0, 0⟩⟩] ⟨⟨0, 0⟩, ⟨0, 0⟩⟩).1
      (by decide)).imp (fun h => by simpa using h) (fun h => by simpa using h),
    (drop_share_spec (ZMod 2) (ZMod 2) [⟨⟨0, 0⟩, ⟨0, 0⟩⟩] ⟨⟨0, 0⟩, ⟨0, 0⟩⟩).2.2
      (by decide)⟩

/-- Embedding of `NoncePair::new`: two fresh uniform draws `(d, e)`. -/
def NoncePair.new (F : Type) (s : RngF F) : (F × F) × RngF F :=
  ((s 0, s 1), RngF.shift s 2)

/-- Embedding of `From<NoncePair> for CommitmentShare`
(`src/sign/precomputation.rs` lines 34-50): commit to each half of the
nonce pair with `(d·B, e·B)`. -/
def commitmentShareOfNoncePair (F G : Type) [Field F] [AddCommGroup G] [Module F G]
    (B : G) (p : F × F) : CommitmentShare F G :=
  ⟨⟨p.1, p.1 • B⟩, ⟨p.2, p.2 • B⟩⟩

/-- Embedding of `CommitmentShare::publish`: the two public points. -/
def CommitmentShare.publish {F G : Type} (c : CommitmentShare F G) : G × G :=
  (c.hiding.commit, c.binding.commit)

/-- The generation loop of `generate_commitment_share_lists`:
`number_of_shares` successive `CommitmentShare::from(NoncePair::new(...))`
draws. -/
def genCommitments (F G : Type) [Field F] [AddCommGroup G] [Module F G]
    (B : G) : ℕ → RngF F → List (CommitmentShare F G)
  | 0, _ => []
  | n + 1, s =>
    let p := NoncePair.new F s
    commitmentShareOfNoncePair F G B p.1 :: genCommitments F G B n p.2

/-- Embedding of `generate_commitment_share_lists`
(`src/sign/precomputation.rs` lines 200-224): generate the secret
commitment shares, publish their points, and package both lists. -/
def generate_commitment_share_lists (F G : Type) [Field F] [AddCommGroup G] [Module F G]
    (B : G) (s : RngF F) (participant_index number_of_shares : ℕ) :
    PublicCommitmentShareList G × SecretCommitmentShareList F G :=
  let commitments := genCommitments F G B number_of_shares s
  let published := commitments.map CommitmentShare.publish
  (⟨participant_index, published⟩, ⟨commitments⟩)

lemma genCommitments_length (F G : Type) [Field F] [AddCommGroup G] [Module F G]
    (B : G) (n : ℕ) (s : RngF F) : (genCommitments F G B n s).length = n := by
  induction n generalizing s with
  | zero => rfl
  | succ n ih => simp [genCommitments, ih]

/-- Every generated share commits each secret half with the
generator. -/
lemma genCommitments_commits (F G : Type) [Field F] [AddCommGroup G] [Module F G]
    (B : G) (n : ℕ) (s : RngF F) :
    ∀ c ∈ genCommitments F G B n s,
      c.hiding.commit = c.hiding.secret • B ∧
      c.binding.commit = c.binding.secret • B := by
  induction n generalizing s with
  | zero => intro c hc; cases hc
  | succ n ih =>
    intro c hc
    rcases List.mem_cons.mp hc with hh | hh
    · subst hh
      exact ⟨rfl, rfl⟩
    · exact ih _ c hh

/-- C7: `generate_commitment_share_lists(rng, i, n)` returns a public
and a secret list both of length `n`, the public list carries the
participant index `i`, and the public pair at each position is
`(d·B, e·B)` for the secret halves `(d, e)` of the secret share at the
same position (stated as a pointwise `map` equation). -/
theorem generate_commitment_share_lists_spec (F G : Type) [Field F]
    [AddCommGroup G] [Module F G] (B : G) (s : RngF F) (i n : ℕ) :
    (generate_commitment_share_lists F G B s i n).1.commitments.length = n ∧
    (generate_commitment_share_lists F G B s i n).2.commitments.length = n ∧
    (generate_commitment_share_lists F G B s i n).1.participant_index = i ∧
    (generate_commitment_share_lists F G B s i n).1.commitments =
      (generate_commitment_share_lists F G B s i n).2.commitments.map
        (fun c => (c.hiding.secret • B, c.binding.secret • B)) := by
  refine ⟨?_, ?_, rfl, ?_⟩
  · simp [generate_commitment_share_lists, genCommitments_length]
  · simp [generate_commitment_share_lists, genCommitments_length]
  · simp only [generate_commitment_share_lists]
    apply List.map_congr_left
    intro c hc
    obtain ⟨hh, hb⟩ := genCommitments_commits F G B n s c hc
    simp [CommitmentShare.publish, hh, hb]

/-- Byte streams for the serialization model (each entry one byte). -/
abbrev Bytes : Type := List ℕ

/-- Little-endian 4-byte encoding of a `u32` field, as the arkworks
compressed serializer emits integers. -/
def u32ToBytes (n : ℕ) : Bytes :=
  [n % 256, n / 256 % 256, n / 65536 % 256, n / 16777216 % 256]

/-- Read back a `u32`: consume 4 bytes, fail on a short buffer. -/
def readU32 : Bytes → Option (ℕ × Bytes)
  | b0 :: b1 :: b2 :: b3 :: rest =>
      some (b0 + 256 * b1 + 65536 * b2 + 16777216 * b3, rest)
  | _ => none

/-- Little-endian 8-byte encoding of the `u64` sequence-length
prefix. -/
def u64ToBytes (n : ℕ) : Bytes :=
  [n % 256, n / 256 % 256, n / 65536 % 256, n / 16777216 % 256,
   n / 4294967296 % 256, n / 1099511627776 % 256,
   n / 281474976710656 % 256, n / 72057594037927936 % 256]

/-- Read back a `u64`: consume 8 bytes, fail on a short buffer. -/
def readU64 : Bytes → Option (ℕ × Bytes)
  | b0 :: b1 :: b2 :: b3 :: b4 :: b5 :: b6 :: b7 :: rest =>
      some (b0 + 256 * b1 + 65536 * b2 + 16777216 * b3 + 4294967296 * b4 +
        1099511627776 * b5 + 281474976710656 * b6 + 72057594037927936 * b7, rest)
  | _ => none

/-- Read `n` consecutive elements with the element decoder. -/
def readN {α : Type} (dec : Bytes → Option (α × Bytes)) : ℕ → Bytes → Option (List α × Bytes)
  | 0, b => some ([], b)
  | n + 1, b =>
    (dec b).bind fun xb =>
      (readN dec n xb.2).map fun lb => (xb.1 :: lb.1, lb.2)

/-- Sequence encoding: a `u64` little-endian length prefix followed by
the encoded elements in order. -/
def vecToBytes {α : Type} (enc : α → Bytes) (l : List α) : Bytes :=
  u64ToBytes l.length ++ (l.map enc).flatten

/-- Sequence decoding: read the length prefix, then that many
elements. -/
def readVec {α : Type} (dec : Bytes → Option (α × Bytes)) (b : Bytes) :
    Option (List α × Bytes) :=
  (readU64 b).bind fun nb => readN dec nb.1 nb.2

/-- `Option` encoding: a presence byte (`0`/`1`) followed by the value
when present. -/
def optToBytes {α : Type} (enc : α → Bytes) : Option α → Bytes
  | none => [0]
  | some x => 1 :: enc x

/-- `Option` decoding: dispatch on the presence byte. -/
def readOpt {α : Type} (dec : Bytes → Option (α × Bytes)) : Bytes → Option (Option α × Bytes)
  | 0 :: rest => some (none, rest)
  | 1 :: rest => (dec rest).map fun p => (some p.1, p.2)
  | _ => none

/-- Encoding of the modelled `NizkPokOfSecretKey`: the point `R`
followed by the scalar `z`, each under the ciphersuite codec. -/
def nizkToBytes {F G : Type} (sEnc : F → Bytes) (pEnc : G → Bytes)
    (pf : NizkPokOfSecretKey F G) : Bytes :=
  pEnc pf.R ++ sEnc pf.z

/-- Decoding of the modelled `NizkPokOfSecretKey`. -/
def readNizk {F G : Type} (sDec : Bytes → Option (F × Bytes))
    (pDec : Bytes → Option (G × Bytes)) (b : Bytes) :
    Option (NizkPokOfSecretKey F G × Bytes) :=
  (pDec b).bind fun rb => (sDec rb.2).map fun zb => (⟨rb.1, zb.1⟩, zb.2)

/-- Encoding of `VerifiableSecretSharingCommitment`: the `u32` index
followed by the length-prefixed point sequence, in field order. -/
def vssToBytes {G : Type} (pEnc : G → Bytes)
    (cm : VerifiableSecretSharingCommitment G) : Bytes :=
  u32ToBytes cm.index ++ vecToBytes pEnc cm.points

/-- Decoding of `VerifiableSecretSharingCommitment`. -/
def readVss {G : Type} (pDec : Bytes → Option (G × Bytes)) (b : Bytes) :
    Option (VerifiableSecretSharingCommitment G × Bytes) :=
  (readU32 b).bind fun ib =>
    (readVec pDec ib.2).map fun pb => (⟨ib.1, pb.1⟩, pb.2)

/-- Embedding of `Participant::to_bytes` (`src/dkg/participant.rs` lines
272-280): the derived compressed serializer emits the fields in
declaration order. -/
def participant_to_bytes {F G : Type} (sEnc : F → Bytes) (pEnc : G → Bytes)
    (x : Participant F G) : Bytes :=
  u32ToBytes x.index ++ pEnc x.dh_public_key ++
    optToBytes (vssToBytes pEnc) x.commitments ++
    optToBytes (nizkToBytes sEnc pEnc) x.proof_of_secret_key ++
    nizkToBytes sEnc pEnc x.proof_of_dh_private_key

/-- Embedding of `Participant::from_bytes` (`src/dkg/participant.rs`
lines 282-285): parse the fields in order; like the arkworks reader, any
bytes after the last field are ignored. -/
def participant_from_bytes {F G : Type} (sDec : Bytes → Option (F × Bytes))
    (pDec : Bytes → Option (G × Bytes)) (b : Bytes) : Option (Participant F G) :=
  (readU32 b).bind fun ib =>
    (pDec ib.2).bind fun db =>
      (readOpt (readVss pDec) db.2).bind fun cb =>
        (readOpt (readNizk sDec pDec) cb.2).bind fun pb =>
          (readNizk sDec pDec pb.2).map fun qb =>
            ⟨ib.1, db.1, cb.1, pb.1, qb.1⟩

/-- Embedding of `GroupKey` from `src/keys.rs`: a single group
element (the phantom marker carries no data). -/
structure GroupKey (G : Type) where
  key : G
deriving DecidableEq

/-- Embedding of `GroupKey::to_bytes` (`src/keys.rs` lines 287-295). -/
def groupkey_to_bytes {G : Type} (pEnc : G → Bytes) (y : GroupKey G) : Bytes :=
  pEnc y.key

/-- Embedding of `GroupKey::from_bytes` (`src/keys.rs` lines 297-300). -/
def groupkey_from_bytes {G : Type} (pDec : Bytes → Option (G × Bytes))
    (b : Bytes) : Option (GroupKey G) :=
  (pDec b).map fun p => ⟨p.1⟩

lemma readU32_rt (n : ℕ) (h : n < 4294967296) (r : Bytes) :
    readU32 (u32ToBytes n ++ r) = some (n, r) := by
  simp only [u32ToBytes, readU32, List.cons_append, List.nil_append]
  refine congrArg some (Prod.ext ?_ rfl)
  simp only
  omega

lemma readU64_rt (n : ℕ) (h : n < 18446744073709551616) (r : Bytes) :
    readU64 (u64ToBytes n ++ r) = some (n, r) := by
  simp only [u64ToBytes, readU64, List.cons_append, List.nil_append]
  refine congrArg some (Prod.ext ?_ rfl)
  simp only
  omega

lemma readN_rt {α : Type} (enc : α → Bytes) (dec : Bytes → Option (α × Bytes))
    (l : List α) (hdec : ∀ v ∈ l, ∀ rest, dec (enc v ++ rest) = some (v, rest))
    (r : Bytes) :
    readN dec l.length ((l.map enc).flatten ++ r) = some (l, r) := by
  induction l generalizing r with
  | nil => simp [readN]
  | cons x xs ih =>
    simp only [List.map_cons, List.flatten_cons, List.length_cons, readN,
      List.append_assoc, hdec x (by simp), Option.some_bind]
    rw [ih (fun v hv rest => hdec v (by simp [hv]) rest)]
    rfl

lemma readVec_rt {α : Type} (enc : α → Bytes) (dec : Bytes → Option (α × Bytes))
    (l : List α) (hdec : ∀ v ∈ l, ∀ rest, dec (enc v ++ rest) = some (v, rest))
    (hlen : l.length < 18446744073709551616) (r : Bytes) :
    readVec dec (vecToBytes enc l ++ r) = some (l, r) := by
  simp only [vecToBytes, readVec, List.append_assoc, readU64_rt l.length hlen,
    Option.some_bind]
  exact readN_rt enc dec l hdec r

lemma readOpt_rt {α : Type} (enc : α → Bytes) (dec : Bytes → Option (α × Bytes))
    (o : Option α) (r : Bytes)
    (h : ∀ v, o = some v → ∀ rest, dec (enc v ++ rest) = some (v, rest)) :
    readOpt dec (optToBytes enc o ++ r) = some (o, r) := by
  cases o with
  | none => simp [optToBytes, readOpt]
  | some v =>
    simp only [optToBytes, readOpt, List.cons_append]
    rw [h v rfl r]
    rfl

lemma readNizk_rt {F G : Type} (sEnc : F → Bytes) (sDec : Bytes → Option (F × Bytes))
    (pEnc : G → Bytes) (pDec : Bytes → Option (G × Bytes))
    (hs : ∀ v r, sDec (sEnc v ++ r) = some (v, r))
    (hp : ∀ v r, pDec (pEnc v ++ r) = some (v, r))
    (pf : NizkPokOfSecretKey F G) (r : Bytes) :
    readNizk sDec pDec (nizkToBytes sEnc pEnc pf ++ r) = some (pf, r) := by
  simp [nizkToBytes, readNizk, List.append_assoc, hp, hs]

lemma readVss_rt {G : Type} (pEnc : G → Bytes) (pDec : Bytes → Option (G × Bytes))
    (hp : ∀ v r, pDec (pEnc v ++ r) = some (v, r))
    (cm : VerifiableSecretSharingCommitment G)
    (hidx : cm.index < 4294967296)
    (hlen : cm.points.length < 18446744073709551616) (r : Bytes) :
    readVss pDec (vssToBytes pEnc cm ++ r) = some (cm, r) := by
  simp only [vssToBytes, readVss, List.append_assoc, readU32_rt cm.index hidx,
    Option.some_bind]
  rw [readVec_rt pEnc pDec cm.points (fun v _ rest => hp v rest) hlen r]
  rfl

/-- C6: the canonical serialization round-trips losslessly:
`from_bytes(to_bytes(x)) = Ok(x)` for the `Participant` and `GroupKey`
wire types, for any ciphersuite scalar and point codecs satisfying the
fixed-size canonical-encoding contract (prefix round-trip), with `u32`
fields and `u64` sequence lengths in range as the Rust types
guarantee. -/
theorem serialization_roundtrip (F G : Type)
    (sEnc : F → Bytes) (sDec : Bytes → Option (F × Bytes))
    (pEnc : G → Bytes) (pDec : Bytes → Option (G × Bytes))
    (hs : ∀ v r, sDec (sEnc v ++ r) = some (v, r))
    (hp : ∀ v r, pDec (pEnc v ++ r) = some (v, r))
    (x : Participant F G) (hx : x.index < 4294967296)
    (hcm : ∀ cm, x.commitments = some cm →
      cm.index < 4294967296 ∧ cm.points.length < 18446744073709551616)
    (y : GroupKey G) :
    participant_from_bytes sDec pDec (participant_to_bytes sEnc pEnc x) = some x ∧
    groupkey_from_bytes pDec (groupkey_to_bytes pEnc y) = some y := by
  constructor
  · have hfull : ∀ r, participant_from_bytes sDec pDec
        (participant_to_bytes sEnc pEnc x ++ r) = some x := by
      intro r
      simp only [participant_to_bytes, participant_from_bytes, List.append_assoc,
        readU32_rt x.index hx, Option.some_bind]
      rw [hp x.dh_public_key]
      simp only [Option.some_bind]
      rw [readOpt_rt (vssToBytes pEnc) (readVss pDec) x.commitments _
        (fun cm hcmeq rest => readVss_rt pEnc pDec hp cm (hcm cm hcmeq).1
          (hcm cm hcmeq).2 rest)]
      simp only [Option.some_bind]
      rw [readOpt_rt (nizkToBytes sEnc pEnc) (readNizk sDec pDec)
        x.proof_of_secret_key _
        (fun pf _ rest => readNizk_rt sEnc sDec pEnc pDec hs hp pf rest)]
      simp only [Option.some_bind]
      rw [readNizk_rt sEnc sDec pEnc pDec hs hp x.proof_of_dh_private_key r]
      rfl
    have := hfull []
    rwa [List.append_nil] at this
  · have := hp y.key []
    simp only [groupkey_to_bytes, groupkey_from_bytes]
    rw [show pEnc y.key = pEnc y.key ++ [] from (List.append_nil _).symm, this]
    rfl

/-- Concrete single-byte codec on `Fin 5` used to witness the
ciphersuite codec contract. -/
def finEnc (v : Fin 5) : Bytes := [v.val]

/-- Concrete single-byte decoder on `Fin 5`. -/
def finDec : Bytes → Option (Fin 5 × Bytes)
  | b :: rest => if h : b < 5 then some (⟨b, h⟩, rest) else none
  | [] => none

lemma finDec_rt (v : Fin 5) (r : Bytes) : finDec (finEnc v ++ r) = some (v, r) := by
  simp [finEnc, finDec, v.isLt]

/-- C6 witness: the round-trip instantiated with the `Fin 5` codec at a
concrete dealer-shaped participant and a concrete group key; the codec
contract and the range side conditions are discharged at this input. -/
theorem serialization_roundtrip_witness :
    (3 : ℕ) < 4294967296 ∧
    participant_from_bytes finDec finDec (participant_to_bytes finEnc finEnc
      ⟨3, 2, some ⟨1, [4]⟩, some ⟨0, 1⟩, ⟨2, 3⟩⟩) =
      some ⟨3, 2, some ⟨1, [4]⟩, some ⟨0, 1⟩, ⟨2, 3⟩⟩ ∧
    groupkey_from_bytes finDec (groupkey_to_bytes finEnc ⟨4⟩) =
      some (⟨4⟩ : GroupKey (Fin 5)) :=
  ⟨by decide,
    (serialization_roundtrip (Fin 5) (Fin 5) finEnc finDec finEnc finDec
      finDec_rt finDec_rt ⟨3, 2, some ⟨1, [4]⟩, some ⟨0, 1⟩, ⟨2, 3⟩⟩ (by decide)
      (fun cm hcmeq => by
        cases Option.some.inj hcmeq
        exact ⟨by decide, by decide⟩) ⟨4⟩).1,
    (serialization_roundtrip (Fin 5) (Fin 5) finEnc finDec finEnc finDec
      finDec_rt finDec_rt ⟨3, 2, some ⟨1, [4]⟩, some ⟨0, 1⟩, ⟨2, 3⟩⟩ (by decide)
      (fun cm hcmeq => by
        cases Option.some.inj hcmeq
        exact ⟨by decide, by decide⟩) ⟨4⟩).2⟩

end IceFrost
